import Mathlib

/-!
# Verification of the `CacheManager` of `webperf`

Shallow embedding of the `CacheManager` object of `src/unnamed/part_004`
(lines ~515–715): an LRU byte-budgeted cache of object URLs over a JS `Map`,
with TTL expiry on access, memory-pressure pruning, and in-flight fetch
deduplication.

Modelling conventions:
* A JS `Map` is an association list in insertion order with unique keys;
  `Map.set` on an existing key replaces the value in place (keeping the
  position), on a fresh key it appends at the end.
* `URL.createObjectURL` hands out fresh identifiers from a counter
  (`nextUrl`); `URL.revokeObjectURL` appends the identifier to `released`,
  so release calls can be counted.
* `Date.now()` is an explicit `now : Nat` argument (milliseconds).
* Configuration is passed explicitly: `enabled` is
  `ConfigManager.isEnabled('smartCache')`, `maxAge` is
  `ConfigManager.get('cacheMaxAge')`, and `limit` is the derived byte limit
  `limitBytes = ConfigManager.get('cacheSizeLimitMB') * 1024 * 1024`
  (see `limitBytesOf`).
* The heap-usage ratio `usedJSHeapSize / jsHeapSizeLimit` read by
  `checkMemoryPressure` is passed as an exact rational `usage : ℚ`.
* `fetch` (the async deduplicating loader) is modelled as an event-loop
  transition system on `LoadState`: `stepStart` is the synchronous prefix of
  a `CacheManager.fetch(url)` call (cache lookup, in-flight join or loader
  start), `stepComplete` the continuation that runs when the awaited network
  fetch settles.  JS runs each such segment atomically.
-/

/-- A JS-`Map` lookup on an association list (first match, as `Map.get`). -/
def jsGet {α : Type} (m : List (String × α)) (k : String) : Option α :=
  (m.find? (fun p => p.1 == k)).map Prod.snd

/-- JS `Map.set`: replace in place if the key exists, else append. -/
def jsSet {α : Type} (m : List (String × α)) (k : String) (v : α) :
    List (String × α) :=
  if (m.find? (fun p => p.1 == k)).isSome then
    m.map (fun p => if p.1 == k then (k, v) else p)
  else
    m ++ [(k, v)]

/-- JS `Map.delete`: remove the entry for `k` (all occurrences; with unique
keys there is at most one). -/
def jsDelete {α : Type} (m : List (String × α)) (k : String) :
    List (String × α) :=
  m.filter (fun p => p.1 != k)

/-- The keys of an association list, in order. -/
def keysOf {α : Type} (m : List (String × α)) : List String :=
  m.map Prod.fst

/-- A cache entry as built by `CacheManager.set`:
`{ objUrl, size: blob.size, timestamp: Date.now() }`. -/
structure Entry where
  objUrl : Nat
  size : Nat
  timestamp : Nat
deriving Repr, DecidableEq

/-- The mutable state of the `CacheManager` singleton, plus the
instrumentation state of the object-URL allocator (`nextUrl`, `released`). -/
structure CacheState where
  cache : List (String × Entry)
  totalBytes : Int
  hits : Nat
  misses : Nat
  evictions : Nat
  nextUrl : Nat
  released : List Nat
deriving Repr, DecidableEq

/-- The initial `CacheManager` state: empty `Map`, zero counters. -/
def initState : CacheState :=
  { cache := [], totalBytes := 0, hits := 0, misses := 0, evictions := 0,
    nextUrl := 0, released := [] }

/-- Sum of the `size` fields of the entries present in the map. -/
def sumBytes (m : List (String × Entry)) : Nat :=
  (m.map (fun p => p.2.size)).sum

/-- The byte limit derived from configuration:
`const limitBytes = ConfigManager.get('cacheSizeLimitMB') * 1024 * 1024`. -/
def limitBytesOf (cacheSizeLimitMB : Nat) : Nat :=
  cacheSizeLimitMB * 1024 * 1024

namespace CacheManager

/-- `CacheManager.delete(key)`: if present, revoke the object URL, subtract
the entry's size from `totalBytes`, and remove it from the map. -/
def delete (st : CacheState) (key : String) : CacheState :=
  match jsGet st.cache key with
  | none => st
  | some e =>
      { st with
        released := st.released ++ [e.objUrl]
        totalBytes := st.totalBytes - e.size
        cache := jsDelete st.cache key }

/-- `CacheManager.evict()`: while `totalBytes > limitBytes` and the map is
nonempty, delete the oldest (first) key and bump `stats.evictions`. -/
def evict (limit : Nat) (st : CacheState) : CacheState :=
  match h : st.cache with
  | [] => st
  | (k, e) :: rest =>
      if st.totalBytes > (limit : Int) then
        evict limit { delete st k with evictions := st.evictions + 1 }
      else st
termination_by st.cache.length
decreasing_by
  have hg : jsGet ((k, e) :: rest) k = some e := by simp [jsGet]
  simp only [delete, h, hg, jsDelete, List.filter_cons, List.length_cons]
  simp only [bne_self_eq_false, Bool.false_eq_true, if_false]
  exact Nat.lt_succ_of_le (List.length_filter_le _ _)

/-- `CacheManager.get(key)`: feature-gated lookup with TTL check and LRU
touch (delete-then-set moves the entry to the most-recent end).  Returns the
object URL on a hit. -/
def get (enabled : Bool) (maxAge : Nat) (now : Nat) (st : CacheState)
    (key : String) : Option Nat × CacheState :=
  if !enabled then (none, st)
  else
    match jsGet st.cache key with
    | none => (none, { st with misses := st.misses + 1 })
    | some e =>
        if now - e.timestamp > maxAge then
          let st' := delete st key
          (none, { st' with misses := st'.misses + 1 })
        else
          let st' := { st with cache := jsSet (jsDelete st.cache key) key e }
          (some e.objUrl, { st' with hits := st'.hits + 1 })

/-- `CacheManager.set(key, blob)`: allocate an object URL, store the entry,
add the blob size to `totalBytes`, run the eviction pass, and return the
object URL. -/
def set (limit : Nat) (st : CacheState) (key : String) (blobSize : Nat)
    (now : Nat) : Nat × CacheState :=
  let objUrl := st.nextUrl
  let e : Entry := { objUrl := objUrl, size := blobSize, timestamp := now }
  let st1 : CacheState :=
    { st with
      nextUrl := st.nextUrl + 1
      cache := jsSet st.cache key e
      totalBytes := st.totalBytes + blobSize }
  (objUrl, evict limit st1)

/-- The pruning loop of `checkMemoryPressure`: iterate over the key
snapshot; `if (count++ >= targetSize) break; this.delete(key)` with
`targetSize = n / 2` (exact division), i.e. stop as soon as `2*count ≥ n`. -/
def pruneLoop (st : CacheState) (ks : List String) (count : Nat) (n : Nat) :
    CacheState :=
  match ks with
  | [] => st
  | k :: rest =>
      if 2 * count ≥ n then st
      else pruneLoop (delete st k) rest (count + 1) n

/-- `CacheManager.checkMemoryPressure()`: if the heap-usage ratio exceeds
0.8, delete roughly half of the entries in iteration (LRU) order. -/
def checkMemoryPressure (usage : ℚ) (st : CacheState) : CacheState :=
  if usage > 4/5 then
    pruneLoop st (keysOf st.cache) 0 st.cache.length
  else st

/-- `CacheManager.clear()`: delete every key, then reset the statistics. -/
def clear (st : CacheState) : CacheState :=
  let st' := (keysOf st.cache).foldl delete st
  { st' with hits := 0, misses := 0, evictions := 0 }

end CacheManager

/-- The value a caller of `CacheManager.fetch` can be handed: an object URL
(cache hit or successful load), or the original URL (the failure fallback).
The `error` constructor exists so the spec's "callers receive the error"
can be stated; the code never produces it (the `catch` swallows errors). -/
inductive FetchResult where
  | objUrl (u : Nat)
  | originalUrl (url : String)
  | error (e : String)
deriving Repr, DecidableEq

/-- How the awaited network fetch of one in-flight load settles: a response
whose blob has `blobSize` bytes, or a failure (rejected promise or non-ok
HTTP status). -/
inductive LoadOutcome where
  | success (blobSize : Nat)
  | failure (e : String)
deriving Repr, DecidableEq

/-- Event-loop state of the fetch subsystem: the cache state together with
`inFlightRequests` (url → load id standing for its promise), a fresh-load-id
counter, the log of loader (network `fetch`) invocations, the subscriber
list (load id, caller id) of promises being awaited, and the results
delivered to callers so far. -/
structure LoadState where
  cacheSt : CacheState
  inFlight : List (String × Nat)
  nextLoad : Nat
  loaderCalls : List String
  subs : List (Nat × Nat)
  delivered : List (Nat × FetchResult)
deriving Repr, DecidableEq

/-- The synchronous prefix of `CacheManager.fetch(url)` run by `caller`:
check the cache (a hit delivers at once); else join an existing in-flight
request; else invoke the loader, register the promise in
`inFlightRequests`, and subscribe. -/
def stepStart (enabled : Bool) (maxAge : Nat) (now : Nat) (caller : Nat)
    (url : String) (ls : LoadState) : LoadState :=
  let r := CacheManager.get enabled maxAge now ls.cacheSt url
  match r.1 with
  | some u =>
      { ls with
        cacheSt := r.2
        delivered := ls.delivered ++ [(caller, FetchResult.objUrl u)] }
  | none =>
      match jsGet ls.inFlight url with
      | some lid =>
          { ls with cacheSt := r.2, subs := ls.subs ++ [(lid, caller)] }
      | none =>
          let lid := ls.nextLoad
          { ls with
            cacheSt := r.2
            nextLoad := lid + 1
            loaderCalls := ls.loaderCalls ++ [url]
            subs := ls.subs ++ [(lid, caller)]
            inFlight := jsSet ls.inFlight url lid }

/-- The continuation of the in-flight load for `url` once the awaited
network fetch settles: on success `this.set(url, blob)` produces the object
URL resolved to every subscriber; on failure the original `url` is resolved
instead (the error is caught); in both cases the `finally` clears
`inFlightRequests` before the subscribers resume. -/
def stepComplete (limit : Nat) (now : Nat) (url : String)
    (outcome : LoadOutcome) (ls : LoadState) : LoadState :=
  match jsGet ls.inFlight url with
  | none => ls
  | some lid =>
      let rc : FetchResult × CacheState :=
        match outcome with
        | LoadOutcome.success blobSize =>
            let uc := CacheManager.set limit ls.cacheSt url blobSize now
            (FetchResult.objUrl uc.1, uc.2)
        | LoadOutcome.failure _ => (FetchResult.originalUrl url, ls.cacheSt)
      { ls with
        cacheSt := rc.2
        inFlight := jsDelete ls.inFlight url
        subs := ls.subs.filter (fun p => p.1 ≠ lid)
        delivered := ls.delivered ++
          (ls.subs.filter (fun p => p.1 = lid)).map (fun p => (p.2, rc.1)) }

/-- The initial `LoadState`. -/
def initLoadState : LoadState :=
  { cacheSt := initState, inFlight := [], nextLoad := 0, loaderCalls := [],
    subs := [], delivered := [] }

/-- One mutating `CacheManager` operation, for stating state invariants over
arbitrary call sequences.  `fetch` mutates the cache state only through
`get` (its lookup) and `set` (on load success), so these six constructors
cover every cache mutation path. -/
inductive Op where
  | getOp (key : String) (now : Nat)
  | setOp (key : String) (blobSize : Nat) (now : Nat)
  | deleteOp (key : String)
  | evictOp
  | pressureOp (usage : ℚ)
  | clearOp

/-- Apply one operation (discarding the returned value). -/
def applyOp (enabled : Bool) (maxAge : Nat) (limit : Nat) (st : CacheState) :
    Op → CacheState
  | Op.getOp key now => (CacheManager.get enabled maxAge now st key).2
  | Op.setOp key blobSize now => (CacheManager.set limit st key blobSize now).2
  | Op.deleteOp key => CacheManager.delete st key
  | Op.evictOp => CacheManager.evict limit st
  | Op.pressureOp usage => CacheManager.checkMemoryPressure usage st
  | Op.clearOp => CacheManager.clear st

/-- Run a sequence of operations from the initial state. -/
def runOps (enabled : Bool) (maxAge : Nat) (limit : Nat) (ops : List Op) :
    CacheState :=
  ops.foldl (applyOp enabled maxAge limit) initState

/-- Bookkeeping invariant of the cache state: keys are unique and the
`totalBytes` counter dominates the actual byte sum (the counter can drift
above the sum, see `C10_counterexample_totalBytes_drift`, but never below). -/
def WF0 (st : CacheState) : Prop :=
  (keysOf st.cache).Nodup ∧ (sumBytes st.cache : Int) ≤ st.totalBytes

/-- Full invariant: bookkeeping plus the size budget. -/
def WF (limit : Nat) (st : CacheState) : Prop :=
  WF0 st ∧ sumBytes st.cache ≤ limit

/-! ### Association-list (JS `Map`) lemmas -/

theorem jsGet_eq_none_iff {α : Type} (m : List (String × α)) (k : String) :
    jsGet m k = none ↔ k ∉ keysOf m := by
  unfold jsGet
  rw [Option.map_eq_none', List.find?_eq_none]
  unfold keysOf
  constructor
  · intro h hk
    rcases List.mem_map.mp hk with ⟨p, hp, hpk⟩
    exact h p hp (by simpa using hpk)
  · intro h p hp hpk
    exact h (List.mem_map.mpr ⟨p, hp, by simpa using hpk⟩)

theorem jsGet_eq_none_of_not_mem {α : Type} {m : List (String × α)}
    {k : String} (h : k ∉ keysOf m) : jsGet m k = none :=
  (jsGet_eq_none_iff m k).mpr h

theorem jsDelete_eq_self {α : Type} {m : List (String × α)} {k : String}
    (h : k ∉ keysOf m) : jsDelete m k = m := by
  apply List.filter_eq_self.mpr
  intro p hp
  simp only [bne_iff_ne, ne_eq]
  intro hpk
  exact h (List.mem_map.mpr ⟨p, hp, hpk⟩)

theorem jsDelete_cons_self {α : Type} (m : List (String × α)) (k : String)
    (v : α) : jsDelete ((k, v) :: m) k = jsDelete m k := by
  simp [jsDelete, List.filter_cons]

theorem jsDelete_cons_ne {α : Type} (m : List (String × α)) {k k' : String}
    (v : α) (h : k' ≠ k) :
    jsDelete ((k', v) :: m) k = (k', v) :: jsDelete m k := by
  simp [jsDelete, List.filter_cons, h]

theorem keysOf_jsDelete {α : Type} (m : List (String × α)) (k : String) :
    keysOf (jsDelete m k) = (keysOf m).filter (fun x => x != k) := by
  induction m with
  | nil => rfl
  | cons p rest ih =>
      by_cases h : p.1 = k
      · simp [jsDelete, keysOf, List.filter_cons, h] at ih ⊢
        exact ih
      · simp [jsDelete, keysOf, List.filter_cons, h] at ih ⊢
        exact ih

theorem jsGet_jsDelete_self {α : Type} (m : List (String × α)) (k : String) :
    jsGet (jsDelete m k) k = none := by
  apply jsGet_eq_none_of_not_mem
  rw [keysOf_jsDelete]
  intro h
  have := (List.mem_filter.mp h).2
  simp at this

theorem not_mem_keysOf_jsDelete {α : Type} (m : List (String × α))
    (k : String) : k ∉ keysOf (jsDelete m k) := by
  rw [keysOf_jsDelete]
  intro h
  have := (List.mem_filter.mp h).2
  simp at this

theorem nodup_keysOf_jsDelete {α : Type} {m : List (String × α)}
    (k : String) (h : (keysOf m).Nodup) : (keysOf (jsDelete m k)).Nodup := by
  rw [keysOf_jsDelete]
  exact h.filter _

theorem keysOf_jsSet_of_mem {α : Type} {m : List (String × α)} {k : String}
    (v : α) (h : (m.find? (fun p => p.1 == k)).isSome) :
    keysOf (jsSet m k v) = keysOf m := by
  simp only [jsSet, if_pos h, keysOf, List.map_map]
  apply List.map_congr_left
  intro p _
  by_cases hp : p.1 = k <;> simp [hp]

theorem jsSet_of_not_mem {α : Type} {m : List (String × α)} {k : String}
    (v : α) (h : k ∉ keysOf m) : jsSet m k v = m ++ [(k, v)] := by
  have : m.find? (fun p => p.1 == k) = none := by
    rw [List.find?_eq_none]
    intro p hp hpk
    exact h (List.mem_map.mpr ⟨p, hp, by simpa using hpk⟩)
  simp [jsSet, this]

theorem nodup_keysOf_jsSet {α : Type} {m : List (String × α)} {k : String}
    (v : α) (h : (keysOf m).Nodup) : (keysOf (jsSet m k v)).Nodup := by
  by_cases hf : (m.find? (fun p => p.1 == k)).isSome
  · rw [keysOf_jsSet_of_mem v hf]; exact h
  · have hk : k ∉ keysOf m := by
      intro hk
      rcases List.mem_map.mp hk with ⟨p, hp, hpk⟩
      exact hf (List.find?_isSome.mpr ⟨p, hp, by simpa using hpk⟩)
    rw [jsSet_of_not_mem v hk]
    have hkeys : keysOf (m ++ [(k, v)]) = keysOf m ++ [k] := by simp [keysOf]
    rw [hkeys]
    refine List.Nodup.append h (List.nodup_singleton k) ?_
    intro x hx hxk
    rw [List.mem_singleton] at hxk
    exact hk (hxk ▸ hx)

theorem jsGet_cons_self {α : Type} (m : List (String × α)) (k : String)
    (v : α) : jsGet ((k, v) :: m) k = some v := by
  simp [jsGet]

theorem jsGet_cons_ne {α : Type} (m : List (String × α)) {k k' : String}
    (v : α) (h : k' ≠ k) : jsGet ((k', v) :: m) k = jsGet m k := by
  unfold jsGet
  rw [List.find?_cons_of_neg _ (by simpa using h)]

theorem sumBytes_cons (p : String × Entry) (m : List (String × Entry)) :
    sumBytes (p :: m) = p.2.size + sumBytes m := by
  simp [sumBytes]

theorem sumBytes_append (m m' : List (String × Entry)) :
    sumBytes (m ++ m') = sumBytes m + sumBytes m' := by
  simp [sumBytes]

/-- Replacing pairs keyed `k` does not change a map whose keys avoid `k`. -/
theorem map_replace_eq_self {α : Type} (m : List (String × α)) (k : String)
    (v : α) (h : k ∉ keysOf m) :
    m.map (fun p => if p.1 == k then (k, v) else p) = m := by
  induction m with
  | nil => rfl
  | cons p rest ih =>
      have hp : (p.1 == k) = false := by
        simp only [beq_eq_false_iff_ne, ne_eq]
        exact fun hpk => h (List.mem_map.mpr ⟨p, List.mem_cons_self _ _, hpk⟩)
      have hrest : k ∉ keysOf rest := fun hk => h (by
        rcases List.mem_map.mp hk with ⟨q, hq, hqk⟩
        exact List.mem_map.mpr ⟨q, List.mem_cons_of_mem _ hq, hqk⟩)
      simp only [List.map_cons, hp, Bool.false_eq_true, if_false, ih hrest]

/-- With unique keys, `jsSet` on the head key replaces just the head. -/
theorem jsSet_cons_self {α : Type} (m : List (String × α)) (k : String)
    (w v : α) (h : k ∉ keysOf m) :
    jsSet ((k, w) :: m) k v = (k, v) :: m := by
  have hfind : (((k, w) :: m).find? (fun p => p.1 == k)).isSome := by
    simp [List.find?_cons_of_pos]
  simp only [jsSet, if_pos hfind, List.map_cons, beq_self_eq_true, if_pos,
    map_replace_eq_self m k v h]

/-- `jsSet` under a mismatching head, when the key occurs farther down. -/
theorem jsSet_cons_ne {α : Type} (m : List (String × α)) {k k' : String}
    (w v : α) (h : k' ≠ k)
    (hmem : (m.find? (fun p => p.1 == k)).isSome) :
    jsSet ((k', w) :: m) k v = (k', w) :: jsSet m k v := by
  have hne : ((k', w).1 == k) = false := by simpa using h
  have hfind : (((k', w) :: m).find? (fun p => p.1 == k)).isSome := by
    rw [List.find?_cons_of_neg _ (by simp [hne])]
    exact hmem
  simp only [jsSet, if_pos hfind, if_pos hmem, List.map_cons, hne,
    Bool.false_eq_true, if_false]

/-- With unique keys, deleting key `k` (present with entry `e`) removes
exactly `e.size` from the byte sum. -/
theorem sumBytes_jsDelete (m : List (String × Entry)) (k : String)
    (e : Entry) (hnd : (keysOf m).Nodup) (hg : jsGet m k = some e) :
    sumBytes m = e.size + sumBytes (jsDelete m k) := by
  induction m with
  | nil => simp [jsGet] at hg
  | cons p rest ih =>
      obtain ⟨k', v⟩ := p
      have hnd' : (keysOf rest).Nodup := (List.nodup_cons.mp hnd).2
      by_cases hk : k' = k
      · subst hk
        rw [jsGet_cons_self] at hg
        obtain rfl : v = e := by simpa using hg
        have hk'' : k' ∉ keysOf rest := (List.nodup_cons.mp hnd).1
        rw [jsDelete_cons_self, jsDelete_eq_self hk'', sumBytes_cons]
      · rw [jsGet_cons_ne _ v hk] at hg
        rw [jsDelete_cons_ne _ v hk, sumBytes_cons, sumBytes_cons, ih hnd' hg]
        omega

/-- Replacing the (unique) entry at `k` swaps its size for the new one. -/
theorem sumBytes_jsSet_of_mem (m : List (String × Entry)) (k : String)
    (eOld v : Entry) (hnd : (keysOf m).Nodup) (hg : jsGet m k = some eOld) :
    sumBytes (jsSet m k v) + eOld.size = sumBytes m + v.size := by
  induction m with
  | nil => simp [jsGet] at hg
  | cons p rest ih =>
      obtain ⟨k', w⟩ := p
      have hnd' : (keysOf rest).Nodup := (List.nodup_cons.mp hnd).2
      by_cases hk : k' = k
      · subst hk
        rw [jsGet_cons_self] at hg
        obtain rfl : w = eOld := by simpa using hg
        have hk'' : k' ∉ keysOf rest := (List.nodup_cons.mp hnd).1
        rw [jsSet_cons_self rest k' w v hk'', sumBytes_cons, sumBytes_cons]
        show v.size + sumBytes rest + w.size = w.size + sumBytes rest + v.size
        omega
      · rw [jsGet_cons_ne _ w hk] at hg
        have hmem : (rest.find? (fun p => p.1 == k)).isSome := by
          rcases hf : rest.find? (fun p => p.1 == k) with _ | q
          · simp [jsGet, hf] at hg
          · rw [hf]; rfl
        rw [jsSet_cons_ne rest w v hk hmem, sumBytes_cons, sumBytes_cons]
        have := ih hnd' hg
        omega

/-- Appending a fresh key adds its size. -/
theorem sumBytes_jsSet_of_not_mem (m : List (String × Entry)) (k : String)
    (v : Entry) (h : k ∉ keysOf m) :
    sumBytes (jsSet m k v) = sumBytes m + v.size := by
  rw [jsSet_of_not_mem v h, sumBytes_append, sumBytes_cons]
  simp [sumBytes]

/-- Any present entry's size is bounded by the byte sum. -/
theorem size_le_sumBytes {m : List (String × Entry)} {k : String} {e : Entry}
    (h : (k, e) ∈ m) : e.size ≤ sumBytes m := by
  induction m with
  | nil => simp at h
  | cons p rest ih =>
      rcases List.mem_cons.mp h with heq | h'
      · rw [← heq, sumBytes_cons]
        exact Nat.le_add_right e.size (sumBytes rest)
      · rw [sumBytes_cons]
        exact le_trans (ih h') (Nat.le_add_left _ _)

/-- With unique keys, a membership pins down the entry `jsGet` returns. -/
theorem jsGet_of_mem {m : List (String × Entry)} {k : String} {e : Entry}
    (hnd : (keysOf m).Nodup) (h : (k, e) ∈ m) : jsGet m k = some e := by
  induction m with
  | nil => simp at h
  | cons p rest ih =>
      obtain ⟨k', v⟩ := p
      have hnd' : (keysOf rest).Nodup := (List.nodup_cons.mp hnd).2
      rcases List.mem_cons.mp h with heq | h'
      · cases heq
        exact jsGet_cons_self _ _ _
      · have hk : k' ≠ k := by
          rintro rfl
          exact (List.nodup_cons.mp hnd).1
            (List.mem_map.mpr ⟨(k', e), h', rfl⟩)
        rw [jsGet_cons_ne _ v hk]
        exact ih hnd' h'

/-- `jsSet` always makes `(k, v)` a member. -/
theorem jsSet_mem {α : Type} (m : List (String × α)) (k : String) (v : α) :
    (k, v) ∈ jsSet m k v := by
  by_cases hf : (m.find? (fun p => p.1 == k)).isSome
  · rcases Option.isSome_iff_exists.mp hf with ⟨p, hp⟩
    have hpm : p ∈ m := List.mem_of_find?_eq_some hp
    have hpk : (p.1 == k) = true := by simpa using List.find?_some hp
    simp only [jsSet, if_pos hf]
    exact List.mem_map.mpr ⟨p, hpm, by simp [hpk]⟩
  · have hk : k ∉ keysOf m := by
      intro hk
      rcases List.mem_map.mp hk with ⟨p, hp, hpk⟩
      exact hf (List.find?_isSome.mpr ⟨p, hp, by simpa using hpk⟩)
    rw [jsSet_of_not_mem v hk]
    simp

/-! ### `CacheManager.delete` characterization -/

theorem delete_of_none {st : CacheState} {k : String}
    (hg : jsGet st.cache k = none) : CacheManager.delete st k = st := by
  unfold CacheManager.delete
  rw [hg]

theorem delete_of_some {st : CacheState} {k : String} {e : Entry}
    (hg : jsGet st.cache k = some e) :
    CacheManager.delete st k =
      { st with
        released := st.released ++ [e.objUrl]
        totalBytes := st.totalBytes - e.size
        cache := jsDelete st.cache k } := by
  unfold CacheManager.delete
  rw [hg]

theorem sumBytes_jsDelete_le (m : List (String × Entry)) (k : String) :
    sumBytes (jsDelete m k) ≤ sumBytes m := by
  induction m with
  | nil => exact Nat.le_refl _
  | cons p rest ih =>
      obtain ⟨k', v⟩ := p
      by_cases hp : k' = k
      · subst hp
        rw [jsDelete_cons_self, sumBytes_cons]
        exact le_trans ih (Nat.le_add_left _ _)
      · rw [jsDelete_cons_ne _ v hp, sumBytes_cons, sumBytes_cons]
        exact Nat.add_le_add_left ih _

theorem WF0_delete {st : CacheState} (k : String) (h : WF0 st) :
    WF0 (CacheManager.delete st k) := by
  obtain ⟨hnd, hsum⟩ := h
  rcases hd : jsGet st.cache k with _ | e
  · rw [delete_of_none hd]; exact ⟨hnd, hsum⟩
  · rw [delete_of_some hd]
    refine ⟨nodup_keysOf_jsDelete k hnd, ?_⟩
    have heq := sumBytes_jsDelete st.cache k e hnd hd
    simp only []
    omega

theorem sumBytes_delete_le (st : CacheState) (k : String) :
    sumBytes (CacheManager.delete st k).cache ≤ sumBytes st.cache := by
  rcases hd : jsGet st.cache k with _ | e
  · rw [delete_of_none hd]
  · rw [delete_of_some hd]
    exact sumBytes_jsDelete_le st.cache k

theorem delete_cache_sublist (st : CacheState) (k : String) :
    (CacheManager.delete st k).cache.Sublist st.cache := by
  rcases hd : jsGet st.cache k with _ | e
  · rw [delete_of_none hd]
  · rw [delete_of_some hd]
    exact List.filter_sublist st.cache

/-! ### `CacheManager.evict` lemmas -/

theorem evict_released_mono (limit : Nat) (st : CacheState) :
    ∀ u ∈ st.released, u ∈ (CacheManager.evict limit st).released := by
  induction st using CacheManager.evict.induct limit with
  | case1 x hx =>
      intro u hu
      rw [CacheManager.evict.eq_def, hx]
      exact hu
  | case2 x k e rest hx hgt ih =>
      intro u hu
      rw [CacheManager.evict.eq_def, hx]
      simp only [hgt, if_pos]
      apply ih
      show u ∈ (CacheManager.delete x k).released
      rcases hd : jsGet x.cache k with _ | e'
      · rw [delete_of_none hd]; exact hu
      · rw [delete_of_some hd]
        exact List.mem_append_left _ hu
  | case3 x k e rest hx hgt =>
      intro u hu
      rw [CacheManager.evict.eq_def, hx]
      simp only [hgt, if_neg]
      exact hu

theorem evict_cache_sublist (limit : Nat) (st : CacheState) :
    (CacheManager.evict limit st).cache.Sublist st.cache := by
  induction st using CacheManager.evict.induct limit with
  | case1 x hx =>
      rw [CacheManager.evict.eq_def, hx]
      show x.cache.Sublist []
      rw [hx]
  | case2 x k e rest hx hgt ih =>
      rw [CacheManager.evict.eq_def, hx]
      simp only [hgt, if_pos]
      refine List.Sublist.trans ih ?_
      show (CacheManager.delete x k).cache.Sublist ((k, e) :: rest)
      rw [← hx]
      exact delete_cache_sublist x k
  | case3 x k e rest hx hgt =>
      rw [CacheManager.evict.eq_def, hx]
      simp only [hgt, if_false]
      rw [hx]

theorem WF0_evict (limit : Nat) (st : CacheState) (h : WF0 st) :
    WF0 (CacheManager.evict limit st) := by
  induction st using CacheManager.evict.induct limit with
  | case1 x hx =>
      rw [CacheManager.evict.eq_def, hx]
      exact h
  | case2 x k e rest hx hgt ih =>
      rw [CacheManager.evict.eq_def, hx]
      simp only [hgt, if_pos]
      apply ih
      have := WF0_delete k h
      exact ⟨this.1, this.2⟩
  | case3 x k e rest hx hgt =>
      rw [CacheManager.evict.eq_def, hx]
      simp only [hgt, if_neg]
      exact h

theorem evict_post (limit : Nat) (st : CacheState) :
    (CacheManager.evict limit st).totalBytes ≤ (limit : Int) ∨
    (CacheManager.evict limit st).cache = [] := by
  induction st using CacheManager.evict.induct limit with
  | case1 x hx =>
      rw [CacheManager.evict.eq_def, hx]
      right; exact hx
  | case2 x k e rest hx hgt ih =>
      rw [CacheManager.evict.eq_def, hx]
      simp only [hgt, if_pos]
      exact ih
  | case3 x k e rest hx hgt =>
      rw [CacheManager.evict.eq_def, hx]
      simp only [hgt, if_false]
      left
      omega

theorem evict_eq_of_le {limit : Nat} (st : CacheState)
    (h : st.totalBytes ≤ (limit : Int)) : CacheManager.evict limit st = st := by
  revert h
  induction st using CacheManager.evict.induct limit with
  | case1 x hx =>
      intro _
      rw [CacheManager.evict.eq_def, hx]
  | case2 x k e rest hx hgt ih =>
      intro h
      omega
  | case3 x k e rest hx hgt =>
      intro _
      rw [CacheManager.evict.eq_def, hx]
      simp only [hgt, if_false]

theorem evict_of_cache_nil {limit : Nat} {st : CacheState}
    (h : st.cache = []) : CacheManager.evict limit st = st := by
  rw [CacheManager.evict.eq_def, h]

theorem evict_evict (limit : Nat) (st : CacheState) :
    CacheManager.evict limit (CacheManager.evict limit st) =
      CacheManager.evict limit st := by
  rcases evict_post limit st with h | h
  · exact evict_eq_of_le _ h
  · exact evict_of_cache_nil h

/-- After the eviction pass the byte sum satisfies the budget (given the
bookkeeping invariant): either the loop stopped with `totalBytes ≤ limit`
(and the sum is below the counter), or the store is empty. -/
theorem sumBytes_evict_le (limit : Nat) (st : CacheState) (h : WF0 st) :
    sumBytes (CacheManager.evict limit st).cache ≤ limit := by
  have hwf := WF0_evict limit st h
  rcases evict_post limit st with hp | hp
  · have := hwf.2
    omega
  · rw [hp]
    exact Nat.zero_le _

theorem WF_evict_of_WF0 (limit : Nat) (st : CacheState) (h : WF0 st) :
    WF limit (CacheManager.evict limit st) :=
  ⟨WF0_evict limit st h, sumBytes_evict_le limit st h⟩

/-- Every entry present before the eviction pass is either still present
afterwards or its payload has been released by it. -/
theorem evict_mem_or_released (limit : Nat) (st : CacheState)
    (hnd : (keysOf st.cache).Nodup) {k : String} {e : Entry}
    (hmem : (k, e) ∈ st.cache) :
    (k, e) ∈ (CacheManager.evict limit st).cache ∨
      e.objUrl ∈ (CacheManager.evict limit st).released := by
  induction st using CacheManager.evict.induct limit with
  | case1 x hx =>
      rw [CacheManager.evict.eq_def, hx]
      rw [hx] at hmem
      simp at hmem
  | case2 x k0 e0 rest hx hgt ih =>
      rw [CacheManager.evict.eq_def, hx]
      simp only [hgt, if_pos]
      have hg0 : jsGet x.cache k0 = some e0 := by
        rw [hx]; exact jsGet_cons_self _ _ _
      have hdel := delete_of_some hg0
      have hdelcache : (CacheManager.delete x k0).cache = rest := by
        rw [hdel]
        simp only []
        rw [hx, jsDelete_cons_self, jsDelete_eq_self]
        rw [hx] at hnd
        exact (List.nodup_cons.mp hnd).1
      rcases List.mem_cons.mp (hx ▸ hmem) with heq | hrest
      · cases heq
        right
        have hrel : e.objUrl ∈ (CacheManager.delete x k).released := by
          rw [hdel]
          exact List.mem_append_right _ (List.mem_singleton.mpr rfl)
        exact evict_released_mono limit _ _ hrel
      · have hnd' : (keysOf (CacheManager.delete x k0).cache).Nodup := by
          rw [hdelcache]
          rw [hx] at hnd
          exact (List.nodup_cons.mp hnd).2
        have hmem' : (k, e) ∈ (CacheManager.delete x k0).cache := by
          rw [hdelcache]; exact hrest
        exact ih hnd' hmem'
  | case3 x k0 e0 rest hx hgt =>
      rw [CacheManager.evict.eq_def, hx]
      simp only [hgt, if_neg]
      left
      exact hmem

/-! ### `CacheManager.get` characterization -/

theorem get_not_enabled (maxAge now : Nat) (st : CacheState) (key : String) :
    CacheManager.get false maxAge now st key = (none, st) := by
  rfl

theorem get_miss (maxAge now : Nat) {st : CacheState} {key : String}
    (hg : jsGet st.cache key = none) :
    CacheManager.get true maxAge now st key =
      (none, { st with misses := st.misses + 1 }) := by
  unfold CacheManager.get
  rw [hg]
  rfl

theorem get_expired (maxAge now : Nat) {st : CacheState} {key : String}
    {e : Entry} (hg : jsGet st.cache key = some e)
    (hexp : now - e.timestamp > maxAge) :
    CacheManager.get true maxAge now st key =
      (none, { CacheManager.delete st key with
               misses := (CacheManager.delete st key).misses + 1 }) := by
  unfold CacheManager.get
  rw [hg]
  simp only [Bool.not_true, Bool.false_eq_true, if_false, hexp, if_pos]

theorem get_hit (maxAge now : Nat) {st : CacheState} {key : String}
    {e : Entry} (hg : jsGet st.cache key = some e)
    (hexp : ¬ now - e.timestamp > maxAge) :
    CacheManager.get true maxAge now st key =
      (some e.objUrl,
       { st with
         cache := jsSet (jsDelete st.cache key) key e
         hits := st.hits + 1 }) := by
  unfold CacheManager.get
  rw [hg]
  simp only [Bool.not_true, Bool.false_eq_true, if_false, hexp]

theorem delete_misses (st : CacheState) (k : String) :
    (CacheManager.delete st k).misses = st.misses := by
  rcases hd : jsGet st.cache k with _ | e
  · rw [delete_of_none hd]
  · rw [delete_of_some hd]

/-- The LRU touch (`delete` then `set` of the found entry) keeps the byte
sum unchanged. -/
theorem sumBytes_touch {m : List (String × Entry)} {k : String} {e : Entry}
    (hnd : (keysOf m).Nodup) (hg : jsGet m k = some e) :
    sumBytes (jsSet (jsDelete m k) k e) = sumBytes m := by
  rw [sumBytes_jsSet_of_not_mem _ _ _ (not_mem_keysOf_jsDelete m k)]
  have := sumBytes_jsDelete m k e hnd hg
  omega

/-! ### Invariant preservation -/

theorem WF_initState (limit : Nat) : WF limit initState := by
  refine ⟨⟨List.nodup_nil, ?_⟩, ?_⟩ <;> simp [initState, sumBytes]

theorem WF_delete {limit : Nat} {st : CacheState} (k : String)
    (h : WF limit st) : WF limit (CacheManager.delete st k) := by
  refine ⟨WF0_delete k h.1, ?_⟩
  exact le_trans (sumBytes_delete_le st k) h.2

theorem WF_get {limit : Nat} (enabled : Bool) (maxAge now : Nat)
    {st : CacheState} (key : String) (h : WF limit st) :
    WF limit (CacheManager.get enabled maxAge now st key).2 := by
  cases enabled with
  | false => rw [get_not_enabled]; exact h
  | true =>
      rcases hg : jsGet st.cache key with _ | e
      · rw [get_miss maxAge now hg]
        exact ⟨⟨h.1.1, h.1.2⟩, h.2⟩
      · by_cases hexp : now - e.timestamp > maxAge
        · rw [get_expired maxAge now hg hexp]
          have := WF_delete key h
          exact ⟨⟨this.1.1, this.1.2⟩, this.2⟩
        · rw [get_hit maxAge now hg hexp]
          refine ⟨⟨?_, ?_⟩, ?_⟩
          · exact nodup_keysOf_jsSet _ (nodup_keysOf_jsDelete key h.1.1)
          · show (sumBytes (jsSet (jsDelete st.cache key) key e) : Int) ≤
              st.totalBytes
            rw [sumBytes_touch h.1.1 hg]
            exact h.1.2
          · show sumBytes (jsSet (jsDelete st.cache key) key e) ≤ limit
            rw [sumBytes_touch h.1.1 hg]
            exact h.2

theorem WF_set {limit : Nat} {st : CacheState} (key : String)
    (blobSize now : Nat) (h : WF0 st) :
    WF limit (CacheManager.set limit st key blobSize now).2 := by
  unfold CacheManager.set
  apply WF_evict_of_WF0
  constructor
  · exact nodup_keysOf_jsSet _ h.1
  · show (sumBytes (jsSet st.cache key
      ⟨st.nextUrl, blobSize, now⟩) : Int) ≤ st.totalBytes + (blobSize : Int)
    rcases hg : jsGet st.cache key with _ | eOld
    · rw [sumBytes_jsSet_of_not_mem _ _ _ ((jsGet_eq_none_iff _ _).mp hg)]
      show ((sumBytes st.cache + blobSize : Nat) : Int) ≤
        st.totalBytes + (blobSize : Int)
      have := h.2
      omega
    · have heq := sumBytes_jsSet_of_mem st.cache key eOld
        ⟨st.nextUrl, blobSize, now⟩ h.1 hg
      have heq' : sumBytes (jsSet st.cache key ⟨st.nextUrl, blobSize, now⟩) +
          eOld.size = sumBytes st.cache + blobSize := heq
      have := h.2
      omega

theorem WF_pruneLoop {limit : Nat} (ks : List String) (count n : Nat)
    {st : CacheState} (h : WF limit st) :
    WF limit (CacheManager.pruneLoop st ks count n) := by
  induction ks generalizing st count with
  | nil => exact h
  | cons k rest ih =>
      unfold CacheManager.pruneLoop
      by_cases hc : 2 * count ≥ n
      · rw [if_pos hc]; exact h
      · rw [if_neg hc]
        exact ih _ (WF_delete k h)

theorem WF_checkMemoryPressure {limit : Nat} (usage : ℚ) {st : CacheState}
    (h : WF limit st) :
    WF limit (CacheManager.checkMemoryPressure usage st) := by
  unfold CacheManager.checkMemoryPressure
  by_cases hu : usage > 4/5
  · rw [if_pos hu]
    exact WF_pruneLoop _ _ _ h
  · rw [if_neg hu]; exact h

theorem WF_foldl_delete {limit : Nat} (ks : List String) {st : CacheState}
    (h : WF limit st) : WF limit (ks.foldl CacheManager.delete st) := by
  induction ks generalizing st with
  | nil => exact h
  | cons k rest ih =>
      rw [List.foldl_cons]
      exact ih (WF_delete k h)

theorem WF_clear {limit : Nat} {st : CacheState} (h : WF limit st) :
    WF limit (CacheManager.clear st) := by
  unfold CacheManager.clear
  have := WF_foldl_delete (keysOf st.cache) h
  exact ⟨⟨this.1.1, this.1.2⟩, this.2⟩

theorem WF_applyOp (enabled : Bool) (maxAge limit : Nat) {st : CacheState}
    (op : Op) (h : WF limit st) :
    WF limit (applyOp enabled maxAge limit st op) := by
  cases op with
  | getOp key now => exact WF_get enabled maxAge now key h
  | setOp key blobSize now => exact WF_set key blobSize now h.1
  | deleteOp key => exact WF_delete key h
  | evictOp => exact WF_evict_of_WF0 limit st h.1
  | pressureOp usage => exact WF_checkMemoryPressure usage h
  | clearOp => exact WF_clear h

theorem WF_runOps (enabled : Bool) (maxAge limit : Nat) (ops : List Op) :
    WF limit (runOps enabled maxAge limit ops) := by
  unfold runOps
  have : ∀ (l : List Op) (st : CacheState), WF limit st →
      WF limit (l.foldl (applyOp enabled maxAge limit) st) := by
    intro l
    induction l with
    | nil => intro st h; exact h
    | cons op rest ih =>
        intro st h
        rw [List.foldl_cons]
        exact ih _ (WF_applyOp enabled maxAge limit op h)
  exact this ops initState (WF_initState limit)

/-! ### The memory-pressure pruning loop removes the first ⌈n/2⌉ keys -/

theorem pruneLoop_cache_drop (ks : List String) (st : CacheState) (c n : Nat)
    (hks : ks = keysOf st.cache) (hnd : (keysOf st.cache).Nodup)
    (hlen : ks.length + c = n) :
    (CacheManager.pruneLoop st ks c n).cache =
      st.cache.drop ((n + 1) / 2 - c) := by
  induction ks generalizing st c with
  | nil =>
      unfold CacheManager.pruneLoop
      have hcache : st.cache = [] := by
        cases hc : st.cache with
        | nil => rfl
        | cons p r => rw [hc] at hks; simp [keysOf] at hks
      rw [hcache]
      simp
  | cons k rest ih =>
      unfold CacheManager.pruneLoop
      by_cases hc : 2 * c ≥ n
      · rw [if_pos hc]
        have hz : (n + 1) / 2 - c = 0 := by omega
        rw [hz, List.drop_zero]
      · rw [if_neg hc]
        obtain ⟨e, t, hcache, hrest⟩ :
            ∃ e t, st.cache = (k, e) :: t ∧ rest = keysOf t := by
          cases hcc : st.cache with
          | nil => rw [hcc] at hks; simp [keysOf] at hks
          | cons p r =>
              obtain ⟨k0, e0⟩ := p
              rw [hcc] at hks
              simp only [keysOf, List.map_cons, List.cons.injEq] at hks
              exact ⟨e0, r, by rw [← hks.1], hks.2⟩
        have hnd2 : k ∉ keysOf t ∧ (keysOf t).Nodup := by
          rw [hcache] at hnd
          have hkeq : keysOf ((k, e) :: t) = k :: keysOf t := rfl
          rw [hkeq] at hnd
          exact ⟨(List.nodup_cons.mp hnd).1, (List.nodup_cons.mp hnd).2⟩
        have hknot : k ∉ keysOf t := hnd2.1
        have hdel : (CacheManager.delete st k).cache = t := by
          have hg : jsGet st.cache k = some e := by
            rw [hcache]; exact jsGet_cons_self _ _ _
          rw [delete_of_some hg]
          show jsDelete st.cache k = t
          rw [hcache, jsDelete_cons_self, jsDelete_eq_self hknot]
        have ihres := ih (CacheManager.delete st k) (c + 1)
          (by rw [hdel]; exact hrest) (by rw [hdel]; exact hnd2.2)
          (by simp only [List.length_cons] at hlen; omega)
        rw [ihres, hdel, hcache]
        have harith : (n + 1) / 2 - c = ((n + 1) / 2 - (c + 1)) + 1 := by
          omega
        rw [harith, List.drop_succ_cons]

/-! ### `fetch` transition-system lemmas -/

theorem get_fst_of_not_mem (enabled : Bool) (maxAge now : Nat)
    {st : CacheState} {key : String} (h : key ∉ keysOf st.cache) :
    (CacheManager.get enabled maxAge now st key).1 = none := by
  cases enabled with
  | false => rw [get_not_enabled]
  | true => rw [get_miss maxAge now (jsGet_eq_none_of_not_mem h)]

theorem get_snd_cache_of_not_mem (enabled : Bool) (maxAge now : Nat)
    {st : CacheState} {key : String} (h : key ∉ keysOf st.cache) :
    (CacheManager.get enabled maxAge now st key).2.cache = st.cache := by
  cases enabled with
  | false => rw [get_not_enabled]
  | true => rw [get_miss maxAge now (jsGet_eq_none_of_not_mem h)]

theorem stepStart_join (enabled : Bool) (maxAge now caller : Nat)
    (url : String) {ls : LoadState} {lid : Nat}
    (hmiss : url ∉ keysOf ls.cacheSt.cache)
    (hin : jsGet ls.inFlight url = some lid) :
    stepStart enabled maxAge now caller url ls =
      { ls with
        cacheSt := (CacheManager.get enabled maxAge now ls.cacheSt url).2
        subs := ls.subs ++ [(lid, caller)] } := by
  simp only [stepStart]
  rw [get_fst_of_not_mem enabled maxAge now hmiss, hin]

theorem stepStart_create (enabled : Bool) (maxAge now caller : Nat)
    (url : String) {ls : LoadState}
    (hmiss : url ∉ keysOf ls.cacheSt.cache)
    (hnin : jsGet ls.inFlight url = none) :
    stepStart enabled maxAge now caller url ls =
      { ls with
        cacheSt := (CacheManager.get enabled maxAge now ls.cacheSt url).2
        nextLoad := ls.nextLoad + 1
        loaderCalls := ls.loaderCalls ++ [url]
        subs := ls.subs ++ [(ls.nextLoad, caller)]
        inFlight := jsSet ls.inFlight url ls.nextLoad } := by
  simp only [stepStart]
  rw [get_fst_of_not_mem enabled maxAge now hmiss, hnin]

theorem stepComplete_failure {ls : LoadState} {url : String} {lid : Nat}
    (hin : jsGet ls.inFlight url = some lid) (limit now : Nat)
    (errMsg : String) :
    stepComplete limit now url (LoadOutcome.failure errMsg) ls =
      { ls with
        inFlight := jsDelete ls.inFlight url
        subs := ls.subs.filter (fun p => p.1 ≠ lid)
        delivered := ls.delivered ++
          (ls.subs.filter (fun p => p.1 = lid)).map
            (fun p => (p.2, FetchResult.originalUrl url)) } := by
  unfold stepComplete
  rw [hin]

theorem stepComplete_success {ls : LoadState} {url : String} {lid : Nat}
    (hin : jsGet ls.inFlight url = some lid) (limit now blobSize : Nat) :
    stepComplete limit now url (LoadOutcome.success blobSize) ls =
      { ls with
        cacheSt := (CacheManager.set limit ls.cacheSt url blobSize now).2
        inFlight := jsDelete ls.inFlight url
        subs := ls.subs.filter (fun p => p.1 ≠ lid)
        delivered := ls.delivered ++
          (ls.subs.filter (fun p => p.1 = lid)).map
            (fun p => (p.2, FetchResult.objUrl
              (CacheManager.set limit ls.cacheSt url blobSize now).1)) } := by
  unfold stepComplete
  rw [hin]

/-- Folding joins over a list of callers: with the load for `url` in flight
and `url` not cached, every further `fetch(url)` start only subscribes. -/
theorem foldl_stepStart_join (enabled : Bool) (maxAge now : Nat)
    (url : String) (lid : Nat) (callers : List Nat) :
    ∀ ls : LoadState, url ∉ keysOf ls.cacheSt.cache →
      jsGet ls.inFlight url = some lid →
      (callers.foldl (fun s c => stepStart enabled maxAge now c url s)
          ls).inFlight = ls.inFlight ∧
      (callers.foldl (fun s c => stepStart enabled maxAge now c url s)
          ls).loaderCalls = ls.loaderCalls ∧
      (callers.foldl (fun s c => stepStart enabled maxAge now c url s)
          ls).subs = ls.subs ++ callers.map (fun c => (lid, c)) ∧
      (callers.foldl (fun s c => stepStart enabled maxAge now c url s)
          ls).delivered = ls.delivered ∧
      (callers.foldl (fun s c => stepStart enabled maxAge now c url s)
          ls).cacheSt.cache = ls.cacheSt.cache ∧
      (callers.foldl (fun s c => stepStart enabled maxAge now c url s)
          ls).nextLoad = ls.nextLoad := by
  induction callers with
  | nil =>
      intro ls h1 h2
      simp
  | cons c cs ih =>
      intro ls h1 h2
      rw [List.foldl_cons]
      have hstep := stepStart_join enabled maxAge now c url h1 h2
      have h1' : url ∉ keysOf (stepStart enabled maxAge now c url
          ls).cacheSt.cache := by
        rw [hstep]
        show url ∉ keysOf (CacheManager.get enabled maxAge now
          ls.cacheSt url).2.cache
        rw [get_snd_cache_of_not_mem enabled maxAge now h1]
        exact h1
      have h2' : jsGet (stepStart enabled maxAge now c url ls).inFlight url =
          some lid := by
        rw [hstep]
        exact h2
      obtain ⟨i1, i2, i3, i4, i5, i6⟩ := ih _ h1' h2'
      refine ⟨?_, ?_, ?_, ?_, ?_, ?_⟩
      · rw [i1, hstep]
      · rw [i2, hstep]
      · rw [i3, hstep]
        show (ls.subs ++ [(lid, c)]) ++ cs.map (fun c => (lid, c)) =
          ls.subs ++ (lid, c) :: cs.map (fun c => (lid, c))
        rw [List.append_assoc]
        rfl
      · rw [i4, hstep]
      · rw [i5, hstep]
        show (CacheManager.get enabled maxAge now ls.cacheSt url).2.cache =
          ls.cacheSt.cache
        exact get_snd_cache_of_not_mem enabled maxAge now h1
      · rw [i6, hstep]

theorem filter_map_subs (lid : Nat) (cs : List Nat) (r : FetchResult) :
    ((cs.map (fun c => (lid, c))).filter
        (fun p => decide (p.1 = lid))).map (fun p => (p.2, r)) =
      cs.map (fun c => (c, r)) := by
  induction cs with
  | nil => rfl
  | cons c rest ih =>
      simp only [List.map_cons, List.filter_cons]
      rw [if_pos (by simp)]
      rw [List.map_cons, ih]

unseal CacheManager.evict

/-- C1: after every mutating cache operation (get with its lazy TTL removal,
set, delete, evict, the memory-pressure pass, clear — `fetch` mutates the
store only through get and set) returns, the sum of the sizes of the entries
actually present in the store is at most
`sizeLimitBytes = cacheSizeLimitMB * 1024 * 1024`; proved for every
operation sequence starting from the empty cache. -/
theorem C1_size_budget_invariant (enabled : Bool)
    (maxAge cacheSizeLimitMB : Nat) (ops : List Op) :
    sumBytes (runOps enabled maxAge (limitBytesOf cacheSizeLimitMB) ops).cache
      ≤ limitBytesOf cacheSizeLimitMB :=
  (WF_runOps enabled maxAge (limitBytesOf cacheSizeLimitMB) ops).2

/-- C5: with the feature enabled, `get` never returns an expired entry as a
hit: if the entry's age `now - timestamp` exceeds the configured TTL
(`cacheMaxAge`), `get` returns `none`, removes the entry from the map
(releasing its object URL and subtracting its size from `totalBytes`),
counts the access as a miss (not a hit), and — the entry being deleted, with
the order of all other entries untouched — never refreshes its recency. -/
theorem C5_expired_get_is_miss (maxAge now : Nat) (st : CacheState)
    (key : String) (e : Entry) (hg : jsGet st.cache key = some e)
    (hexp : now - e.timestamp > maxAge) :
    (CacheManager.get true maxAge now st key).1 = none ∧
    (CacheManager.get true maxAge now st key).2.cache =
      jsDelete st.cache key ∧
    key ∉ keysOf (CacheManager.get true maxAge now st key).2.cache ∧
    (CacheManager.get true maxAge now st key).2.released =
      st.released ++ [e.objUrl] ∧
    (CacheManager.get true maxAge now st key).2.totalBytes =
      st.totalBytes - e.size ∧
    (CacheManager.get true maxAge now st key).2.misses = st.misses + 1 ∧
    (CacheManager.get true maxAge now st key).2.hits = st.hits := by
  rw [get_expired maxAge now hg hexp, delete_of_some hg]
  exact ⟨rfl, rfl, not_mem_keysOf_jsDelete st.cache key, rfl, rfl, rfl, rfl⟩

/-- Witness for C5 at a concrete expired entry (TTL 100ms, age 200ms). -/
theorem C5_expired_get_is_miss_witness :
    (CacheManager.get true 100 200
        ⟨[("k", ⟨5, 10, 0⟩)], 10, 0, 0, 0, 6, []⟩ "k").1 = none ∧
    (CacheManager.get true 100 200
        ⟨[("k", ⟨5, 10, 0⟩)], 10, 0, 0, 0, 6, []⟩ "k").2.cache =
      jsDelete [("k", ⟨5, 10, 0⟩)] "k" ∧
    "k" ∉ keysOf (CacheManager.get true 100 200
        ⟨[("k", ⟨5, 10, 0⟩)], 10, 0, 0, 0, 6, []⟩ "k").2.cache ∧
    (CacheManager.get true 100 200
        ⟨[("k", ⟨5, 10, 0⟩)], 10, 0, 0, 0, 6, []⟩ "k").2.released =
      [] ++ [5] ∧
    (CacheManager.get true 100 200
        ⟨[("k", ⟨5, 10, 0⟩)], 10, 0, 0, 0, 6, []⟩ "k").2.totalBytes =
      10 - (10 : Int) ∧
    (CacheManager.get true 100 200
        ⟨[("k", ⟨5, 10, 0⟩)], 10, 0, 0, 0, 6, []⟩ "k").2.misses = 0 + 1 ∧
    (CacheManager.get true 100 200
        ⟨[("k", ⟨5, 10, 0⟩)], 10, 0, 0, 0, 6, []⟩ "k").2.hits = 0 :=
  C5_expired_get_is_miss 100 200 ⟨[("k", ⟨5, 10, 0⟩)], 10, 0, 0, 0, 6, []⟩
    "k" ⟨5, 10, 0⟩ (by decide) (by decide)

/-- C7: with a byte limit of 100, inserting A(40), B(40), C(40) in order
evicts exactly A (object URL 0 is the only one released, one eviction),
leaving exactly {B, C} with 80 bytes; after `get(B)` (a hit refreshing B's
recency) and inserting D(40), exactly C (object URL 2) is further evicted,
leaving exactly {B, D} with 80 bytes. -/
theorem C7_lru_scenario :
    (let s1 := (CacheManager.set 100 initState "A" 40 0).2
     let s2 := (CacheManager.set 100 s1 "B" 40 1).2
     let s3 := (CacheManager.set 100 s2 "C" 40 2).2
     let s4 := (CacheManager.get true 3600000 3 s3 "B").2
     let s5 := (CacheManager.set 100 s4 "D" 40 4).2
     keysOf s3.cache = ["B", "C"] ∧ sumBytes s3.cache = 80 ∧
     s3.totalBytes = 80 ∧ s3.released = [0] ∧ s3.evictions = 1 ∧
     (CacheManager.get true 3600000 3 s3 "B").1 = some 1 ∧
     keysOf s4.cache = ["C", "B"] ∧
     keysOf s5.cache = ["B", "D"] ∧ sumBytes s5.cache = 80 ∧
     s5.released = [0, 2] ∧ s5.evictions = 2) := by
  decide

/-- C8: when the memory-pressure handler runs with a heap-usage ratio
strictly above the 0.8 threshold, it removes exactly the first ⌈n/2⌉
entries of the recency order (the least-recently-used ones), keeping the
remaining suffix, regardless of the size budget; at or below the threshold
it changes nothing at all. -/
theorem C8_memory_pressure (usage : ℚ) (st : CacheState)
    (hnd : (keysOf st.cache).Nodup) :
    (usage > 4/5 →
      (CacheManager.checkMemoryPressure usage st).cache =
        st.cache.drop ((st.cache.length + 1) / 2)) ∧
    (usage ≤ 4/5 → CacheManager.checkMemoryPressure usage st = st) := by
  constructor
  · intro hu
    unfold CacheManager.checkMemoryPressure
    rw [if_pos hu]
    have := pruneLoop_cache_drop (keysOf st.cache) st 0 st.cache.length rfl
      hnd (by simp [keysOf])
    rw [this, Nat.sub_zero]
  · intro hu
    unfold CacheManager.checkMemoryPressure
    rw [if_neg (not_lt.mpr hu)]

/-- Witness for C8: on a 3-entry cache, ratio 0.9 prunes the two
least-recent entries, ratio exactly 0.8 changes nothing. -/
theorem C8_memory_pressure_witness :
    (CacheManager.checkMemoryPressure (9/10)
      ⟨[("a", ⟨0, 1, 0⟩), ("b", ⟨1, 1, 0⟩), ("c", ⟨2, 1, 0⟩)],
        3, 0, 0, 0, 3, []⟩).cache =
      [("a", ⟨0, 1, 0⟩), ("b", ⟨1, 1, 0⟩), ("c", ⟨2, 1, 0⟩)].drop 2 ∧
    CacheManager.checkMemoryPressure (4/5)
      ⟨[("a", ⟨0, 1, 0⟩), ("b", ⟨1, 1, 0⟩), ("c", ⟨2, 1, 0⟩)],
        3, 0, 0, 0, 3, []⟩ =
      ⟨[("a", ⟨0, 1, 0⟩), ("b", ⟨1, 1, 0⟩), ("c", ⟨2, 1, 0⟩)],
        3, 0, 0, 0, 3, []⟩ := by
  constructor
  · exact (C8_memory_pressure (9/10) _ (by decide)).1 (by norm_num)
  · exact (C8_memory_pressure (4/5) _ (by decide)).2 (le_refl _)

/-- C9: the size-budget eviction pass is idempotent: when `totalBytes` is
already within the limit it removes no entries, releases no payloads and
leaves every field (including the eviction counter) unchanged; and running
the pass twice always equals running it once. -/
theorem C9_evict_idempotent (limit : Nat) (st : CacheState)
    (h : st.totalBytes ≤ (limit : Int)) :
    CacheManager.evict limit st = st ∧
    CacheManager.evict limit (CacheManager.evict limit st) =
      CacheManager.evict limit st :=
  ⟨evict_eq_of_le st h, evict_evict limit st⟩

/-- Witness for C9 at a concrete within-budget state. -/
theorem C9_evict_idempotent_witness :
    CacheManager.evict 100 ⟨[("a", ⟨0, 10, 0⟩)], 10, 0, 0, 0, 1, []⟩ =
      ⟨[("a", ⟨0, 10, 0⟩)], 10, 0, 0, 0, 1, []⟩ ∧
    CacheManager.evict 100 (CacheManager.evict 100
        ⟨[("a", ⟨0, 10, 0⟩)], 10, 0, 0, 0, 1, []⟩) =
      CacheManager.evict 100 ⟨[("a", ⟨0, 10, 0⟩)], 10, 0, 0, 0, 1, []⟩ :=
  C9_evict_idempotent 100 ⟨[("a", ⟨0, 10, 0⟩)], 10, 0, 0, 0, 1, []⟩
    (by decide)

/-- C3 counterexample: in a concrete run (one caller fetches "u", the
network fetch fails with "boom"), the waiting caller does **not** receive
the loader's error — it is handed the fallback value `originalUrl "u"`
instead, so the claim "every caller receives that same error" is false on
the code. -/
theorem C3_counterexample_error_swallowed :
    (stepComplete 100 0 "u" (LoadOutcome.failure "boom")
        (stepStart true 3600000 0 0 "u" initLoadState)).delivered =
      [(0, FetchResult.originalUrl "u")] ∧
    (0, FetchResult.error "boom") ∉
      (stepComplete 100 0 "u" (LoadOutcome.failure "boom")
        (stepStart true 3600000 0 0 "u" initLoadState)).delivered := by
  decide

/-- C3 amended: if the network fetch for a key fails, every caller waiting
on that key's in-flight load receives the **same fallback value** (the
original URL — the error itself is caught and swallowed, not surfaced), the
in-flight marker is cleared, and a subsequent `fetch` for the key (still
uncached) invokes the loader again rather than replaying a cached failure. -/
theorem C3_amended_failure_fallback (enabled : Bool)
    (limit now maxAge now2 : Nat) (url errMsg : String) (c2 : Nat)
    (ls : LoadState) (lid : Nat)
    (hin : jsGet ls.inFlight url = some lid)
    (hmiss : url ∉ keysOf ls.cacheSt.cache) :
    (stepComplete limit now url (LoadOutcome.failure errMsg) ls).delivered =
      ls.delivered ++ (ls.subs.filter (fun p => p.1 = lid)).map
        (fun p => (p.2, FetchResult.originalUrl url)) ∧
    jsGet (stepComplete limit now url (LoadOutcome.failure errMsg)
      ls).inFlight url = none ∧
    (stepStart enabled maxAge now2 c2 url
        (stepComplete limit now url (LoadOutcome.failure errMsg)
          ls)).loaderCalls =
      (stepComplete limit now url (LoadOutcome.failure errMsg)
          ls).loaderCalls ++ [url] := by
  have hfail := stepComplete_failure hin limit now errMsg
  have hnin2 : jsGet (stepComplete limit now url
      (LoadOutcome.failure errMsg) ls).inFlight url = none := by
    rw [hfail]
    exact jsGet_jsDelete_self ls.inFlight url
  have hmiss2 : url ∉ keysOf (stepComplete limit now url
      (LoadOutcome.failure errMsg) ls).cacheSt.cache := by
    rw [hfail]
    exact hmiss
  refine ⟨by rw [hfail], hnin2, ?_⟩
  rw [stepStart_create enabled maxAge now2 c2 url hmiss2 hnin2]

/-- Witness for C3 amended at the concrete failing-fetch scenario. -/
theorem C3_amended_failure_fallback_witness :
    (stepComplete 100 0 "u" (LoadOutcome.failure "boom")
        ⟨⟨[], 0, 0, 1, 0, 0, []⟩, [("u", 0)], 1, ["u"],
          [(0, 7)], []⟩).delivered =
      [] ++ ([((0 : Nat), (7 : Nat))].filter (fun p => p.1 = 0)).map
        (fun p => (p.2, FetchResult.originalUrl "u")) ∧
    jsGet (stepComplete 100 0 "u" (LoadOutcome.failure "boom")
        ⟨⟨[], 0, 0, 1, 0, 0, []⟩, [("u", 0)], 1, ["u"],
          [(0, 7)], []⟩).inFlight "u" = none ∧
    (stepStart true 3600000 5 9 "u"
        (stepComplete 100 0 "u" (LoadOutcome.failure "boom")
          ⟨⟨[], 0, 0, 1, 0, 0, []⟩, [("u", 0)], 1, ["u"],
            [(0, 7)], []⟩)).loaderCalls =
      (stepComplete 100 0 "u" (LoadOutcome.failure "boom")
          ⟨⟨[], 0, 0, 1, 0, 0, []⟩, [("u", 0)], 1, ["u"],
            [(0, 7)], []⟩).loaderCalls ++ ["u"] :=
  C3_amended_failure_fallback true 100 0 3600000 5 "u" "boom" 9
    ⟨⟨[], 0, 0, 1, 0, 0, []⟩, [("u", 0)], 1, ["u"], [(0, 7)], []⟩ 0
    (by decide) (by decide)

/-- C4: per-key in-flight deduplication: starting with no load in flight
and the key uncached, N ≥ 1 concurrent `fetch(url)` calls (interleaved
before the load settles) invoke the loader exactly once — every later
caller joins the single in-flight load, which is the only one existing for
the key — and when the load settles all N callers are delivered the same
result. -/
theorem C4_inflight_dedup (enabled : Bool) (maxAge now limit now2 : Nat)
    (url : String) (cs0 : CacheState) (hurl : url ∉ keysOf cs0.cache)
    (c0 : Nat) (callers : List Nat) (outcome : LoadOutcome) :
    (let ls0 : LoadState := ⟨cs0, [], 0, [], [], []⟩
     let lsN := (c0 :: callers).foldl
       (fun s c => stepStart enabled maxAge now c url s) ls0
     lsN.loaderCalls = [url] ∧
     lsN.inFlight = [(url, 0)] ∧
     lsN.subs = (c0 :: callers).map (fun c => ((0 : Nat), c)) ∧
     ∃ r, (stepComplete limit now2 url outcome lsN).delivered =
         (c0 :: callers).map (fun c => (c, r)) ∧
       (stepComplete limit now2 url outcome lsN).inFlight = []) := by
  simp only []
  rw [List.foldl_cons]
  have hurl0 : url ∉ keysOf
      (⟨cs0, [], 0, [], [], []⟩ : LoadState).cacheSt.cache := hurl
  have h0in : jsGet (⟨cs0, [], 0, [], [], []⟩ : LoadState).inFlight url =
      none := rfl
  have hstep0 := stepStart_create enabled maxAge now c0 url hurl0 h0in
  have hls1 : stepStart enabled maxAge now c0 url ⟨cs0, [], 0, [], [], []⟩ =
      ⟨(CacheManager.get enabled maxAge now cs0 url).2, [(url, 0)], 1,
        [url], [(0, c0)], []⟩ := by
    rw [hstep0]
    rfl
  rw [hls1]
  have h1' : url ∉ keysOf (⟨(CacheManager.get enabled maxAge now cs0 url).2,
      [(url, 0)], 1, [url], [(0, c0)], []⟩ : LoadState).cacheSt.cache := by
    show url ∉ keysOf (CacheManager.get enabled maxAge now cs0 url).2.cache
    rw [get_snd_cache_of_not_mem enabled maxAge now hurl]
    exact hurl
  have h2' : jsGet (⟨(CacheManager.get enabled maxAge now cs0 url).2,
      [(url, 0)], 1, [url], [(0, c0)], []⟩ : LoadState).inFlight url =
      some 0 := jsGet_cons_self _ _ _
  obtain ⟨i1, i2, i3, i4, i5, i6⟩ :=
    foldl_stepStart_join enabled maxAge now url 0 callers _ h1' h2'
  have hsubs : (callers.foldl
      (fun s c => stepStart enabled maxAge now c url s)
      ⟨(CacheManager.get enabled maxAge now cs0 url).2, [(url, 0)], 1,
        [url], [(0, c0)], []⟩).subs =
      (c0 :: callers).map (fun c => ((0 : Nat), c)) := by
    rw [i3]
    rfl
  refine ⟨i2, i1, hsubs, ?_⟩
  have hinN : jsGet (callers.foldl
      (fun s c => stepStart enabled maxAge now c url s)
      ⟨(CacheManager.get enabled maxAge now cs0 url).2, [(url, 0)], 1,
        [url], [(0, c0)], []⟩).inFlight url = some 0 := by
    rw [i1]
    exact jsGet_cons_self _ _ _
  have hdelin : jsDelete (callers.foldl
      (fun s c => stepStart enabled maxAge now c url s)
      ⟨(CacheManager.get enabled maxAge now cs0 url).2, [(url, 0)], 1,
        [url], [(0, c0)], []⟩).inFlight url = [] := by
    rw [i1, jsDelete_cons_self]
    rfl
  cases outcome with
  | success blobSize =>
      refine ⟨FetchResult.objUrl (CacheManager.set limit
        (callers.foldl (fun s c => stepStart enabled maxAge now c url s)
          ⟨(CacheManager.get enabled maxAge now cs0 url).2, [(url, 0)], 1,
            [url], [(0, c0)], []⟩).cacheSt url blobSize now2).1, ?_, ?_⟩
      · rw [stepComplete_success hinN]
        show _ ++ _ = _
        rw [i4, hsubs, filter_map_subs]
        rfl
      · rw [stepComplete_success hinN]
        exact hdelin
  | failure errMsg =>
      refine ⟨FetchResult.originalUrl url, ?_, ?_⟩
      · rw [stepComplete_failure hinN]
        show _ ++ _ = _
        rw [i4, hsubs, filter_map_subs]
        rfl
      · rw [stepComplete_failure hinN]
        exact hdelin

/-- Witness for C4: three interleaved fetches of "u" from the initial
state, settling successfully. -/
theorem C4_inflight_dedup_witness :
    (let ls0 : LoadState := ⟨initState, [], 0, [], [], []⟩
     let lsN := ([0, 1, 2] : List Nat).foldl
       (fun s c => stepStart true 3600000 0 c "u" s) ls0
     lsN.loaderCalls = ["u"] ∧
     lsN.inFlight = [("u", 0)] ∧
     lsN.subs = ([0, 1, 2] : List Nat).map (fun c => ((0 : Nat), c)) ∧
     ∃ r, (stepComplete 100 1 "u" (LoadOutcome.success 40) lsN).delivered =
         ([0, 1, 2] : List Nat).map (fun c => (c, r)) ∧
       (stepComplete 100 1 "u" (LoadOutcome.success 40) lsN).inFlight = []) :=
  C4_inflight_dedup true 3600000 0 100 1 "u" initState (by decide) 0 [1, 2]
    (LoadOutcome.success 40)

/-- C2 (code bug): a `set` on a key that is already present overwrites the
`Map` entry without ever revoking the replaced entry's object URL: after
two `set`s of the same key and a `clear`, only the second payload's URL
(id 1) was ever released; the first payload (URL id 0, handed out by the
first `set`) got zero release calls over its whole lifetime even though no
entry holds it any more. -/
theorem C2_replace_leaks_release :
    (CacheManager.set 1000 initState "k" 10 0).1 = 0 ∧
    (let st2 := (CacheManager.set 1000
        (CacheManager.set 1000 initState "k" 10 0).2 "k" 10 1).2
     let st3 := CacheManager.clear st2
     st3.cache = [] ∧ st3.released = [1] ∧ 0 ∉ st3.released) := by
  decide

/-- C10 (code bug): a `set` on an already-present key adds the new blob's
size to `totalBytes` without subtracting the replaced entry's size, so the
counter drifts above the true sum: after two `set`s of "k" (10 bytes each)
the map holds one 10-byte entry but `totalBytes` reads 20. -/
theorem C10_totalBytes_drift_on_duplicate_set :
    (let st2 := (CacheManager.set 1000
        (CacheManager.set 1000 initState "k" 10 0).2 "k" 10 1).2
     st2.totalBytes = 20 ∧ sumBytes st2.cache = 10 ∧
     keysOf st2.cache = ["k"]) := by
  decide

/-- The intermediate state built by `set` before its eviction pass
satisfies the bookkeeping invariant. -/
theorem WF0_set_staged {st : CacheState} (key : String) (blobSize now : Nat)
    (h : WF0 st) :
    WF0 { st with
      nextUrl := st.nextUrl + 1
      cache := jsSet st.cache key ⟨st.nextUrl, blobSize, now⟩
      totalBytes := st.totalBytes + (blobSize : Int) } := by
  constructor
  · exact nodup_keysOf_jsSet _ h.1
  · show (sumBytes (jsSet st.cache key ⟨st.nextUrl, blobSize, now⟩) : Int) ≤
      st.totalBytes + (blobSize : Int)
    rcases hg : jsGet st.cache key with _ | eOld
    · rw [sumBytes_jsSet_of_not_mem _ _ _ ((jsGet_eq_none_iff _ _).mp hg)]
      show ((sumBytes st.cache + blobSize : Nat) : Int) ≤
        st.totalBytes + (blobSize : Int)
      have := h.2
      omega
    · have heq' : sumBytes (jsSet st.cache key ⟨st.nextUrl, blobSize, now⟩) +
          eOld.size = sumBytes st.cache + blobSize :=
        sumBytes_jsSet_of_mem st.cache key eOld
          ⟨st.nextUrl, blobSize, now⟩ h.1 hg
      have := h.2
      omega

/-- C6 counterexample: with limit 50 bytes, a 60-byte `set` is **not**
rejected with an error: it returns normally, hands back object URL 0 — a
handle to the oversized payload — and the item is in fact inserted and then
immediately evicted (one eviction from an initially empty cache) with its
payload released, contradicting "rejected ... the oversized item is not
inserted and no handle to it is handed back". -/
theorem C6_counterexample_no_capacity_error :
    CacheManager.set 50 initState "big" 60 0 =
      (0, ⟨[], 0, 0, 0, 1, 1, [0]⟩) := by
  decide

/-- C6 amended: a `set` whose single item's `sizeBytes` exceeds
`sizeLimitBytes` raises no error (there is no `CapacityExceeded` in the
code): `set` returns the freshly allocated object URL as usual, the
oversized item is inserted and then removed again by the eviction pass
before `set` returns — its payload released — so the key is absent
afterwards and the store's size invariant still holds; but the caller is
left holding the returned object URL of an already-released payload. -/
theorem C6_amended_oversized_set (limit : Nat) (st : CacheState)
    (key : String) (blobSize now : Nat) (h : WF0 st)
    (hbig : blobSize > limit) :
    (CacheManager.set limit st key blobSize now).1 = st.nextUrl ∧
    key ∉ keysOf (CacheManager.set limit st key blobSize now).2.cache ∧
    st.nextUrl ∈ (CacheManager.set limit st key blobSize now).2.released ∧
    sumBytes (CacheManager.set limit st key blobSize now).2.cache ≤
      limit := by
  have hWF1 := WF0_set_staged key blobSize now h
  have hnd1 : (keysOf (jsSet st.cache key
      (⟨st.nextUrl, blobSize, now⟩ : Entry))).Nodup :=
    nodup_keysOf_jsSet _ h.1
  have hsum := sumBytes_evict_le limit _ hWF1
  have hmem1 : ((key, (⟨st.nextUrl, blobSize, now⟩ : Entry)) ∈
      ({ st with
        nextUrl := st.nextUrl + 1
        cache := jsSet st.cache key ⟨st.nextUrl, blobSize, now⟩
        totalBytes := st.totalBytes + (blobSize : Int) } :
          CacheState).cache) :=
    jsSet_mem st.cache key _
  have hnotin : (key, (⟨st.nextUrl, blobSize, now⟩ : Entry)) ∉
      (CacheManager.evict limit { st with
        nextUrl := st.nextUrl + 1
        cache := jsSet st.cache key ⟨st.nextUrl, blobSize, now⟩
        totalBytes := st.totalBytes + (blobSize : Int) }).cache := by
    intro hmem
    have hle := size_le_sumBytes hmem
    show False
    have : blobSize ≤ limit := le_trans hle hsum
    omega
  refine ⟨rfl, ?_, ?_, ?_⟩
  · show key ∉ keysOf (CacheManager.evict limit { st with
      nextUrl := st.nextUrl + 1
      cache := jsSet st.cache key ⟨st.nextUrl, blobSize, now⟩
      totalBytes := st.totalBytes + (blobSize : Int) }).cache
    intro hk
    rcases List.mem_map.mp hk with ⟨p, hp, hpk⟩
    have hp1 : p = (key, p.2) := by
      obtain ⟨p1, p2⟩ := p
      simp only [] at hpk
      rw [hpk]
    rw [hp1] at hp
    have hpstage : (key, p.2) ∈ (jsSet st.cache key
        (⟨st.nextUrl, blobSize, now⟩ : Entry)) :=
      (evict_cache_sublist limit _).mem hp
    have := jsGet_of_mem hnd1 hpstage
    have h2 := jsGet_of_mem hnd1 (jsSet_mem st.cache key
      (⟨st.nextUrl, blobSize, now⟩ : Entry))
    rw [this] at h2
    have h3 : p.2 = ⟨st.nextUrl, blobSize, now⟩ := Option.some.inj h2
    rw [h3] at hp
    exact hnotin hp
  · show st.nextUrl ∈ (CacheManager.evict limit { st with
      nextUrl := st.nextUrl + 1
      cache := jsSet st.cache key ⟨st.nextUrl, blobSize, now⟩
      totalBytes := st.totalBytes + (blobSize : Int) }).released
    rcases evict_mem_or_released limit _ hnd1 hmem1 with hmem | hrel
    · exact absurd hmem hnotin
    · exact hrel
  · exact hsum

/-- Witness for C6 amended at the concrete oversized insert
(limit 50, size 60). -/
theorem C6_amended_oversized_set_witness :
    (CacheManager.set 50 initState "big" 60 0).1 = 0 ∧
    "big" ∉ keysOf (CacheManager.set 50 initState "big" 60 0).2.cache ∧
    0 ∈ (CacheManager.set 50 initState "big" 60 0).2.released ∧
    sumBytes (CacheManager.set 50 initState "big" 60 0).2.cache ≤ 50 :=
  C6_amended_oversized_set 50 initState "big" 60 0
    ⟨by decide, by decide⟩ (by decide)
